import Mathlib

/-!
Verification of the time-tracker core (src/src/App.jsx): the timer/entry
state machine (`stopActiveJob`, `handleStart`, `handleStop`, `handleDelete`,
`handleClearAll`), the aggregation logic (`todayEntries`, `dailyTotal`,
`jobTotals`) and the persistence codec (`load`, the two storage records).

Modelling conventions:
- JS numbers holding millisecond timestamps and second durations are
  modelled as `Int` (they are integral in this program; `Date.now()` is an
  integer count of milliseconds, and all arithmetic on them stays integral).
- `Math.floor(x / 1000)` on an integer `x` is floor division, `Int.fdiv x 1000`.
- Every call to `Date.now()` becomes an explicit `Int` parameter, in the
  order the source samples the clock; `crypto.randomUUID()` becomes an
  explicit fresh-id parameter.
- React `useState` setters are modelled by explicit state passing: each
  event handler is a function from the pre-event `AppState` to the
  post-event `AppState`.  Functional updates (`setEntries(prev => ...)`)
  make the sequential model exact.
- The `elapsed` display counter (LiveClock) is derived state recomputed by
  an effect from `activeJob`; it is not part of the store and no claim
  depends on it, so it is omitted from `AppState`.
-/

namespace TimeTracker

/-- Model of JavaScript `String.prototype.trim`: drop leading and trailing
whitespace characters.  (Implemented structurally over the character list
so that it evaluates by kernel reduction; `String.trim` in core is
extensionally the same but is defined through `Substring` helpers that do
not reduce.) -/
def jsTrim (s : String) : String :=
  ⟨((s.data.dropWhile Char.isWhitespace).reverse.dropWhile Char.isWhitespace).reverse⟩

/-- A completed entry, as built in `stopActiveJob` (App.jsx lines 101-108). -/
structure Entry where
  id : String
  jobNumber : String
  startTimestamp : Int
  endTimestamp : Int
  durationSeconds : Int
  notes : String
deriving Repr, DecidableEq

/-- The active session: `{ jobNumber, startTimestamp }` (App.jsx line 61). -/
structure ActiveSession where
  jobNumber : String
  startTimestamp : Int
deriving Repr, DecidableEq

/-- The component state relevant to the store: the `entries` list, the
optional `activeJob`, and the two text inputs `jobInput` / `notesInput`
(App.jsx lines 60-65). -/
structure AppState where
  entries : List Entry
  activeJob : Option ActiveSession
  jobInput : String
  notesInput : String
deriving Repr, DecidableEq

/-- The entry record built at stop time (App.jsx lines 99-108):
`durationSeconds = Math.floor((now - start)/1000)`, `notes` trimmed. -/
def stopEntry (now : Int) (freshId : String) (notes : String) (a : ActiveSession) : Entry :=
  { id := freshId
    jobNumber := a.jobNumber
    startTimestamp := a.startTimestamp
    endTimestamp := now
    durationSeconds := Int.fdiv (now - a.startTimestamp) 1000
    notes := jsTrim notes }

/-- `stopActiveJob(notes)` (App.jsx lines 97-112): no-op returning `null`
when idle; otherwise prepends the new entry and clears the session,
returning the entry.  `now` is the single `Date.now()` sample, `freshId`
the `crypto.randomUUID()` result. -/
def stopActiveJob (now : Int) (freshId : String) (notes : String) (s : AppState) :
    AppState × Option Entry :=
  match s.activeJob with
  | none => (s, none)
  | some a =>
      let e := stopEntry now freshId notes a
      ({ s with entries := e :: s.entries, activeJob := none }, some e)

/-- `handleStart()` (App.jsx lines 114-121): trims `jobInput`, returns
unchanged when the result is empty; otherwise auto-stops any running job
(closing note = current `notesInput`) and starts a session on the trimmed
job number.  The source calls `Date.now()` twice — once inside
`stopActiveJob` (`tStop`) and once for the new session (`tStart`). -/
def handleStart (tStop tStart : Int) (freshId : String) (s : AppState) : AppState :=
  let job := jsTrim s.jobInput
  if job = "" then s
  else
    let s1 := match s.activeJob with
      | some _ => (stopActiveJob tStop freshId s.notesInput s).1
      | none => s
    { s1 with activeJob := some { jobNumber := job, startTimestamp := tStart }
              notesInput := "" }

/-- `handleStop()` (App.jsx lines 123-126): stop with the current
`notesInput` as closing note, then clear `notesInput`. -/
def handleStop (now : Int) (freshId : String) (s : AppState) : AppState :=
  let s1 := (stopActiveJob now freshId s.notesInput s).1
  { s1 with notesInput := "" }

/-- `handleDelete(id)` (App.jsx lines 128-130). -/
def handleDelete (id : String) (s : AppState) : AppState :=
  { s with entries := s.entries.filter (fun e => e.id ≠ id) }

/-- `handleClearAll()` (App.jsx lines 132-138): the `window.confirm`
answer is the explicit `confirmed` parameter; on `true` the entries are
emptied and the session discarded (no entry is created), on `false`
nothing happens. -/
def handleClearAll (confirmed : Bool) (s : AppState) : AppState :=
  if confirmed then { s with entries := [], activeJob := none, notesInput := "" }
  else s

/-!
Aggregation (App.jsx lines 31-39 and 144-160).

The host's local-time calendar conversion (`new Date(ts).getFullYear()` /
`.getMonth()` / `.getDate()`) is modelled as a fixed UTC offset `tzMs`
(milliseconds to add to a UTC instant to obtain local time) followed by
the standard civil-from-days calendar algorithm.  The year/month/day
triple here has 1-based months where JS is 0-based; only equality of the
triples matters, which is unaffected.
-/

/-- Civil (proleptic Gregorian) date from a count of days since the Unix
epoch (1970-01-01): the classic era/year-of-era/day-of-year computation,
returning (year, month 1-12, day 1-31). -/
def civilFromDays (z0 : Int) : Int × Int × Int :=
  let z := z0 + 719468
  let era := Int.fdiv z 146097
  let doe := z - era * 146097
  let yoe := Int.fdiv (doe - Int.fdiv doe 1460 + Int.fdiv doe 36524 - Int.fdiv doe 146096) 365
  let y := yoe + era * 400
  let doy := doe - (365 * yoe + Int.fdiv yoe 4 - Int.fdiv yoe 100)
  let mp := Int.fdiv (5 * doy + 2) 153
  let d := doy - Int.fdiv (153 * mp + 2) 5 + 1
  let m := mp + (if mp < 10 then 3 else -9)
  (y + (if m ≤ 2 then 1 else 0), m, d)

/-- The local calendar date (year, month, day) of a millisecond timestamp
`ts`, with the host timezone modelled as the fixed offset `tzMs`. -/
def localCivilDate (tzMs ts : Int) : Int × Int × Int :=
  civilFromDays (Int.fdiv (ts + tzMs) 86400000)

/-- `isToday(ts)` (App.jsx lines 31-39): the year, month and day of `ts`
each equal those of the reference instant `nowMs`, in local time. -/
def isToday (tzMs nowMs ts : Int) : Bool :=
  let d := localCivilDate tzMs ts
  let n := localCivilDate tzMs nowMs
  decide (d.1 = n.1) && decide (d.2.1 = n.2.1) && decide (d.2.2 = n.2.2)

/-- `todayEntries` (App.jsx lines 144-147): the entries whose start falls
on the local calendar day of `nowMs`. -/
def todayEntries (tzMs nowMs : Int) (entries : List Entry) : List Entry :=
  entries.filter (fun e => isToday tzMs nowMs e.startTimestamp)

/-- `dailyTotal` (App.jsx lines 149-152): `reduce((sum, e) => sum +
e.durationSeconds, 0)` over `todayEntries`. -/
def dailyTotal (tzMs nowMs : Int) (entries : List Entry) : Int :=
  (todayEntries tzMs nowMs entries).foldl (fun sum e => sum + e.durationSeconds) 0

/-- One step of the totals map construction (App.jsx line 157):
`map[e.jobNumber] = (map[e.jobNumber] || 0) + e.durationSeconds`.  The JS
object is modelled as an association list with pairwise-distinct keys in
insertion order: an existing binding (necessarily the only one) is updated
in place, a new key is appended. -/
def addDuration (job : String) (d : Int) : List (String × Int) → List (String × Int)
  | [] => [(job, d)]
  | p :: ps => if p.1 = job then (p.1, p.2 + d) :: ps else p :: addDuration job d ps

/-- The `forEach` loop of `jobTotals` (App.jsx lines 155-158), folding the
entries into the insertion-ordered totals map. -/
def buildTotals (l : List Entry) (m : List (String × Int)) : List (String × Int) :=
  match l with
  | [] => m
  | e :: es => buildTotals es (addDuration e.jobNumber e.durationSeconds m)

/-- Lexicographic (code-point) comparison of character lists, as a Bool:
`charListLe as bs` holds when `as` precedes or equals `bs`. -/
def charListLe : List Char → List Char → Bool
  | [], _ => true
  | _ :: _, [] => false
  | c :: cs, d :: ds => if c < d then true else if d < c then false else charListLe cs ds

/-- Lexicographic string order: the model of a non-positive
`a.localeCompare(b)` result. -/
def strLe (a b : String) : Bool := charListLe a.data b.data

/-- Key order used by the final sort of `jobTotals` (App.jsx line 159):
`.sort(([a], [b]) => a.localeCompare(b))`.  `localeCompare` is modelled as
the lexicographic (code-point) string order — the reading the spec itself
gives ("ascending lexicographic order"); host locale collation agrees with
it on the plain ASCII job identifiers this app handles. -/
def keyLe (p q : String × Int) : Prop := strLe p.1 q.1 = true

instance : DecidableRel keyLe := fun p q => inferInstanceAs (Decidable (strLe p.1 q.1 = true))

instance : IsTotal (String × Int) keyLe := by
  constructor
  intro p q
  show charListLe p.1.data q.1.data = true ∨ charListLe q.1.data p.1.data = true
  generalize p.1.data = as
  generalize q.1.data = bs
  induction as generalizing bs with
  | nil => exact Or.inl rfl
  | cons c cs ih =>
      cases bs with
      | nil => exact Or.inr rfl
      | cons d ds =>
          by_cases hcd : c < d
          · left; simp [charListLe, hcd]
          · by_cases hdc : d < c
            · right; simp [charListLe, hdc]
            · rcases ih ds with h | h
              · left; simp [charListLe, hcd, hdc, h]
              · right; simp [charListLe, hcd, hdc, h]

instance : IsTrans (String × Int) keyLe := by
  constructor
  intro p q r h1 h2
  show charListLe p.1.data r.1.data = true
  replace h1 : charListLe p.1.data q.1.data = true := h1
  replace h2 : charListLe q.1.data r.1.data = true := h2
  generalize hP : p.1.data = as at h1 ⊢
  generalize hQ : q.1.data = bs at h1 h2
  generalize hR : r.1.data = cs at h2 ⊢
  clear hP hQ hR
  induction as generalizing bs cs with
  | nil => rfl
  | cons a as ih =>
      cases bs with
      | nil => simp [charListLe] at h1
      | cons b bs =>
          cases cs with
          | nil => simp [charListLe] at h2
          | cons c cs =>
              simp only [charListLe] at h1 h2 ⊢
              by_cases hab1 : a < b
              · by_cases hbc1 : b < c
                · simp [lt_trans hab1 hbc1]
                · by_cases hbc2 : c < b
                  · simp [hbc1, hbc2] at h2
                  · have hbceq : b = c := le_antisymm (le_of_not_lt hbc2) (le_of_not_lt hbc1)
                    simp [hbceq ▸ hab1]
              · by_cases hab2 : b < a
                · simp [hab1, hab2] at h1
                · have habeq : a = b := le_antisymm (le_of_not_lt hab2) (le_of_not_lt hab1)
                  subst habeq
                  by_cases hbc1 : a < c
                  · simp [hbc1]
                  · by_cases hbc2 : c < a
                    · simp [hbc1, hbc2] at h2
                    · simp only [if_neg hab1, if_neg hab2] at h1
                      simp only [if_neg hbc1, if_neg hbc2] at h2 ⊢
                      exact ih _ h1 _ h2

/-- `jobTotals` (App.jsx lines 154-160): fold today's entries into a
per-job totals map, then sort the (jobNumber, total) pairs by job number.
`Array.prototype.sort` with a comparator is modelled as a stable insertion
sort by the induced order (the keys are pairwise distinct, so any correct
sort produces this result). -/
def jobTotals (tzMs nowMs : Int) (entries : List Entry) : List (String × Int) :=
  List.insertionSort keyLe (buildTotals (todayEntries tzMs nowMs entries) [])

/-- Total duration recorded in `l` for job number `job` (specification
shorthand used to state the aggregation claims). -/
def sumJob (job : String) (l : List Entry) : Int :=
  ((l.filter (fun e => e.jobNumber = job)).map Entry.durationSeconds).sum

/-- First-binding lookup in the association-list model of the JS object. -/
def findJob (job : String) : List (String × Int) → Option Int
  | [] => none
  | p :: ps => if p.1 = job then some p.2 else findJob job ps

/-!
Persistence (App.jsx lines 41-53 and 69-80).

The store is `localStorage` under keys `tt_entries` and `tt_active`.
The values this program writes are JSON trees of strings and integral
numbers, so JSON values are modelled by the `Json` inductive below with
integer numerics.  The text codec itself (`JSON.stringify` / `JSON.parse`,
host builtins outside this repository) is modelled from the spec: "the
stored form is a serialized text encoding ... that round-trips exactly
for valid prior writes" (§6) — accordingly a storage slot holds the JSON
value that was written, or nothing when the key is absent / was removed.
For the load path, `JSON.parse`'s behaviour on an arbitrary stored string
is an explicit parameter `parse : String → Option Json` (`none` = the
exception `load` catches).
-/

/-- JSON values (numbers restricted to the integers, which is all this
program ever writes). -/
inductive Json where
  | null
  | bool (b : Bool)
  | num (n : Int)
  | str (s : String)
  | arr (elems : List Json)
  | obj (fields : List (String × Json))

/-- `load(key, fallback)` (App.jsx lines 46-53): `raw` is what
`localStorage.getItem` returned (`none` models `null`, and also the
getItem exception the `try` swallows); a falsy raw (`null` or `""`) gives
the fallback; otherwise the parse result is returned as-is, with a parse
exception (`none`) giving the fallback.  Note the parsed value is NOT
shape-checked. -/
def load (raw : Option String) (parse : String → Option Json) (fallback : Json) : Json :=
  match raw with
  | none => fallback
  | some s => if s = "" then fallback else (parse s).getD fallback

/-- First-binding field lookup in a JSON object (property access on the
parsed object). -/
def getField (fields : List (String × Json)) (key : String) : Option Json :=
  match fields with
  | [] => none
  | p :: ps => if p.1 = key then some p.2 else getField ps key

/-- Read a JSON value as a string. -/
def asStr : Json → Option String
  | .str s => some s
  | _ => none

/-- Read a JSON value as an (integral) number. -/
def asInt : Json → Option Int
  | .num n => some n
  | _ => none

/-- The JSON object `JSON.stringify` produces for one entry: exactly the
fields built in `stopActiveJob` (App.jsx lines 101-108). -/
def encodeEntry (e : Entry) : Json :=
  .obj [("id", .str e.id), ("jobNumber", .str e.jobNumber),
        ("startTimestamp", .num e.startTimestamp), ("endTimestamp", .num e.endTimestamp),
        ("durationSeconds", .num e.durationSeconds), ("notes", .str e.notes)]

/-- The JSON array written for the entries record (App.jsx line 70). -/
def encodeEntries (es : List Entry) : Json :=
  .arr (es.map encodeEntry)

/-- The JSON object written for the active-session record (App.jsx line 76). -/
def encodeActive (a : ActiveSession) : Json :=
  .obj [("jobNumber", .str a.jobNumber), ("startTimestamp", .num a.startTimestamp)]

/-- Interpretation of a restored JSON value as an `Entry`: reads back the
fields the application accesses on a restored entry object. -/
def decodeEntry : Json → Option Entry
  | .obj fields => do
      let id ← (getField fields "id").bind asStr
      let jobNumber ← (getField fields "jobNumber").bind asStr
      let startTimestamp ← (getField fields "startTimestamp").bind asInt
      let endTimestamp ← (getField fields "endTimestamp").bind asInt
      let durationSeconds ← (getField fields "durationSeconds").bind asInt
      let notes ← (getField fields "notes").bind asStr
      pure { id, jobNumber, startTimestamp, endTimestamp, durationSeconds, notes }
  | _ => none

/-- Decode a list of restored entry objects; any failure fails the list. -/
def decodeEntryList : List Json → Option (List Entry)
  | [] => some []
  | v :: vs =>
      match decodeEntry v, decodeEntryList vs with
      | some e, some es => some (e :: es)
      | _, _ => none

/-- Interpretation of the restored entries record as a list of entries. -/
def decodeEntriesJson : Json → Option (List Entry)
  | .arr xs => decodeEntryList xs
  | _ => none

/-- Interpretation of the restored active-session record. -/
def decodeActiveJson : Json → Option ActiveSession
  | .obj fields => do
      let jobNumber ← (getField fields "jobNumber").bind asStr
      let startTimestamp ← (getField fields "startTimestamp").bind asInt
      pure { jobNumber, startTimestamp }
  | _ => none

/-- "The restored entries record has the shape the application relies on":
an array of objects carrying all six entry fields with the right types. -/
def entriesShapeOk (v : Json) : Bool :=
  (decodeEntriesJson v).isSome

/-- The two localStorage records (App.jsx lines 41-44): a slot is `none`
when the key is absent (never written, or removed by `removeItem`). -/
structure Storage where
  ttEntries : Option Json
  ttActive : Option Json

/-- The persistence effects (App.jsx lines 69-80): after any mutation the
entries list is written under `tt_entries`, and the active session is
written under `tt_active` when present or the key is REMOVED when absent. -/
def persistState (entries : List Entry) (activeJob : Option ActiveSession)
    (st : Storage) : Storage :=
  { st with ttEntries := some (encodeEntries entries), ttActive := activeJob.map encodeActive }

/-- Restoring the active session on load (App.jsx line 62):
`load(STORAGE.ACTIVE, null)` gives `null` (no session) for an absent key,
else the stored object, here interpreted back as an `ActiveSession`. -/
def restoreActiveSession (st : Storage) : Option ActiveSession :=
  st.ttActive.bind decodeActiveJson

/-- Restoring the entries list on load (App.jsx line 60):
`load(STORAGE.ENTRIES, [])` gives `[]` for an absent key, else the stored
array, here interpreted back as a `List Entry`. -/
def restoreEntries (st : Storage) : Option (List Entry) :=
  decodeEntriesJson (st.ttEntries.getD (Json.arr []))

/-- A `JSON.parse` behaviour used as a concrete counterexample input: the
stored text `"42"` parses successfully to the number `42` (as the real
`JSON.parse` does), everything else fails to parse. -/
def parseNum42 : String → Option Json :=
  fun s => if s = "42" then some (Json.num 42) else none

/-- Counterexample state for the stop-time computation: a session on job
`"J"` started at millisecond 1000. -/
def cexState : AppState :=
  { entries := [], activeJob := some ⟨"J", 1000⟩, jobInput := "", notesInput := "" }

-- Concrete evaluations checking the persistence and aggregation models.
example : decodeEntriesJson (encodeEntries [⟨"a", "J", 1, 2, 0, "n"⟩]) =
    some [⟨"a", "J", 1, 2, 0, "n"⟩] := rfl
example : restoreActiveSession (persistState [] (some ⟨"J", 5⟩) ⟨none, none⟩) =
    some ⟨"J", 5⟩ := rfl
example : load (some "42") parseNum42 (Json.arr []) = Json.num 42 := rfl
example : localCivilDate 0 0 = (1970, 1, 1) := by decide
example : localCivilDate 0 1760140800000 = (2025, 10, 11) := by decide
example : localCivilDate (-5 * 3600000) 1760140800000 = (2025, 10, 10) := by decide
example :
    jobTotals 0 0 [⟨"a", "J2", 1000, 2000, 1, ""⟩, ⟨"b", "J1", 3000, 6000, 3, ""⟩,
                   ⟨"c", "J2", 1000, 9000, 8, ""⟩] = [("J1", 3), ("J2", 9)] := by decide
example : dailyTotal 0 0 [⟨"a", "J2", 1000, 2000, 1, ""⟩, ⟨"b", "J1", 88400000, 0, 5, ""⟩] = 1 := by
  decide

/-! ## Helper lemmas -/

/-- `reduce((sum, e) => sum + e.durationSeconds, a)` is `a` plus the sum of
the durations. -/
theorem foldl_add_durations (l : List Entry) (a : Int) :
    l.foldl (fun sum e => sum + e.durationSeconds) a = a + (l.map Entry.durationSeconds).sum := by
  induction l generalizing a with
  | nil => simp
  | cons e es ih => simp [ih, add_assoc]

/-- Componentwise equality of (year, month, day) triples is equality. -/
theorem decide_triple_eq (a b : Int × Int × Int) :
    (decide (a.1 = b.1) && decide (a.2.1 = b.2.1) && decide (a.2.2 = b.2.2)) = decide (a = b) := by
  obtain ⟨a1, a2, a3⟩ := a
  obtain ⟨b1, b2, b3⟩ := b
  by_cases h1 : a1 = b1 <;> by_cases h2 : a2 = b2 <;> by_cases h3 : a3 = b3 <;>
    simp [h1, h2, h3, Prod.ext_iff]

/-- `isToday` tests equality of the two local calendar dates. -/
theorem isToday_eq_decide (tzMs nowMs ts : Int) :
    isToday tzMs nowMs ts =
      decide (localCivilDate tzMs ts = localCivilDate tzMs nowMs) := by
  simp only [isToday]
  exact decide_triple_eq _ _

/-- Lookup after one `map[job] = (map[job] || 0) + d` step. -/
theorem findJob_addDuration (k j : String) (d : Int) (m : List (String × Int)) :
    findJob k (addDuration j d m) =
      if k = j then some ((findJob j m).getD 0 + d) else findJob k m := by
  induction m with
  | nil =>
      by_cases h : k = j
      · subst h; simp [addDuration, findJob]
      · have h2 : ¬ j = k := fun hh => h hh.symm
        simp [addDuration, findJob, h, h2]
  | cons p ps ih =>
      by_cases hpj : p.1 = j
      · by_cases hkj : k = j
        · subst hkj; simp [addDuration, findJob, hpj]
        · have hpk : ¬ p.1 = k := fun hh => hkj (hh ▸ hpj)
          have h2 : ¬ j = k := fun hh => hkj hh.symm
          simp [addDuration, findJob, hpj, hpk, hkj, h2]
      · by_cases hpk : p.1 = k
        · have hkj : ¬ k = j := fun hh => hpj (hpk.symm ▸ hh)
          simp [addDuration, findJob, hpj, hpk, hkj]
        · simp [addDuration, findJob, hpj, hpk, ih]

/-- One `addDuration` step adds `d` to the total of the stored values. -/
theorem sum_addDuration (j : String) (d : Int) (m : List (String × Int)) :
    ((addDuration j d m).map Prod.snd).sum = (m.map Prod.snd).sum + d := by
  induction m with
  | nil => simp [addDuration]
  | cons p ps ih =>
      by_cases h : p.1 = j
      · simp only [addDuration, if_pos h, List.map_cons, List.sum_cons]
        ring
      · simp only [addDuration, if_neg h, List.map_cons, List.sum_cons, ih]
        ring

/-- The keys after an `addDuration` step are the old keys plus `j`. -/
theorem mem_keys_addDuration (k j : String) (d : Int) (m : List (String × Int)) :
    k ∈ (addDuration j d m).map Prod.fst ↔ k = j ∨ k ∈ m.map Prod.fst := by
  induction m with
  | nil => simp [addDuration]
  | cons p ps ih =>
      by_cases h : p.1 = j
      · subst h
        simp [addDuration]
      · simp [addDuration, h, ih]
        tauto

/-- `addDuration` keeps the keys pairwise distinct. -/
theorem nodup_keys_addDuration (j : String) (d : Int) (m : List (String × Int))
    (h : (m.map Prod.fst).Nodup) : ((addDuration j d m).map Prod.fst).Nodup := by
  induction m with
  | nil => simp [addDuration]
  | cons p ps ih =>
      rw [List.map_cons, List.nodup_cons] at h
      by_cases hpj : p.1 = j
      · simpa [addDuration, hpj, List.nodup_cons] using h
      · rw [show addDuration j d (p :: ps) = p :: addDuration j d ps by simp [addDuration, hpj],
            List.map_cons, List.nodup_cons]
        refine ⟨?_, ih h.2⟩
        rw [mem_keys_addDuration]
        rintro (hh | hh)
        · exact hpj hh
        · exact h.1 hh

/-- The fold over the entries adds the total duration to the stored values. -/
theorem sum_buildTotals (l : List Entry) (m : List (String × Int)) :
    ((buildTotals l m).map Prod.snd).sum =
      (m.map Prod.snd).sum + (l.map Entry.durationSeconds).sum := by
  induction l generalizing m with
  | nil => simp [buildTotals]
  | cons e es ih =>
      rw [show buildTotals (e :: es) m =
            buildTotals es (addDuration e.jobNumber e.durationSeconds m) from rfl,
          ih, sum_addDuration]
      simp; ring

/-- After the fold, the value stored at `k` grows by the total duration of
the processed entries with job number `k`. -/
theorem getD_findJob_buildTotals (l : List Entry) (m : List (String × Int)) (k : String) :
    (findJob k (buildTotals l m)).getD 0 = (findJob k m).getD 0 + sumJob k l := by
  induction l generalizing m with
  | nil => simp [buildTotals, sumJob]
  | cons e es ih =>
      rw [show buildTotals (e :: es) m =
            buildTotals es (addDuration e.jobNumber e.durationSeconds m) from rfl,
          ih, findJob_addDuration]
      by_cases h : k = e.jobNumber
      · subst h
        simp [sumJob]
        ring
      · have h2 : ¬ e.jobNumber = k := fun hh => h hh.symm
        simp [sumJob, h, h2]

/-- A key is present after the fold exactly when it was present before or
occurs among the processed entries. -/
theorem isSome_findJob_buildTotals (l : List Entry) (m : List (String × Int)) (k : String) :
    (findJob k (buildTotals l m)).isSome = true ↔
      (findJob k m).isSome = true ∨ ∃ e ∈ l, e.jobNumber = k := by
  induction l generalizing m with
  | nil => simp [buildTotals]
  | cons e es ih =>
      rw [show buildTotals (e :: es) m =
            buildTotals es (addDuration e.jobNumber e.durationSeconds m) from rfl,
          ih, findJob_addDuration]
      by_cases h : k = e.jobNumber
      · subst h; simp
      · have h2 : ¬ e.jobNumber = k := fun hh => h hh.symm
        simp [h, h2]

/-- The fold keeps the keys pairwise distinct. -/
theorem nodup_keys_buildTotals (l : List Entry) (m : List (String × Int))
    (h : (m.map Prod.fst).Nodup) : ((buildTotals l m).map Prod.fst).Nodup := by
  induction l generalizing m with
  | nil => exact h
  | cons e es ih => exact ih _ (nodup_keys_addDuration _ _ _ h)

/-- With distinct keys, membership determines the lookup result. -/
theorem findJob_eq_some_of_mem (m : List (String × Int)) (k : String) (t : Int)
    (hnd : (m.map Prod.fst).Nodup) (hm : (k, t) ∈ m) : findJob k m = some t := by
  induction m with
  | nil => cases hm
  | cons p ps ih =>
      rw [List.map_cons, List.nodup_cons] at hnd
      rcases List.mem_cons.1 hm with heq | hm2
      · rw [← heq]; simp [findJob]
      · have hne : ¬ p.1 = k := by
          intro hpk
          exact hnd.1 (hpk ▸ List.mem_map_of_mem Prod.fst hm2)
        simp [findJob, hne, ih hnd.2 hm2]

/-- A successful lookup comes from a member pair. -/
theorem mem_of_findJob_eq_some (m : List (String × Int)) (k : String) (t : Int)
    (h : findJob k m = some t) : (k, t) ∈ m := by
  induction m with
  | nil => simp [findJob] at h
  | cons p ps ih =>
      obtain ⟨p1, p2⟩ := p
      by_cases hpk : p1 = k
      · subst hpk
        simp [findJob] at h
        simp [h]
      · simp [findJob, hpk] at h
        exact List.mem_cons_of_mem _ (ih h)

/-- Entry decoding inverts entry encoding. -/
theorem decodeEntry_encodeEntry (e : Entry) : decodeEntry (encodeEntry e) = some e := rfl

/-- List decoding inverts pointwise entry encoding. -/
theorem decodeEntryList_encode (es : List Entry) :
    decodeEntryList (es.map encodeEntry) = some es := by
  induction es with
  | nil => rfl
  | cons e es ih => simp [decodeEntryList, decodeEntry_encodeEntry, ih]

/-! ## Claims -/

/-- C1: calling start while a session for `job1` is running is the same
state transformation as stop followed by start: one new entry for `job1`
closed with the caller-supplied notes, a new active session for the new
job, and no other difference (the equality is of complete states). -/
theorem start_while_running_eq_stop_then_start
    (s : AppState) (a : ActiveSession) (tStop tStart tOther : Int) (i iOther : String)
    (hrun : s.activeJob = some a) (hjob : jsTrim s.jobInput ≠ "") :
    handleStart tStop tStart i s = handleStart tOther tStart iOther (handleStop tStop i s) ∧
    (handleStart tStop tStart i s).entries = stopEntry tStop i s.notesInput a :: s.entries ∧
    (handleStart tStop tStart i s).activeJob =
      some { jobNumber := jsTrim s.jobInput, startTimestamp := tStart } := by
  refine ⟨?_, ?_, ?_⟩ <;> simp [handleStart, handleStop, stopActiveJob, hrun, hjob]

/-- C1 witness: a concrete running state switched from `J1` to `J2`. -/
theorem start_while_running_eq_stop_then_start_witness :
    ((AppState.mk [] (some ⟨"J1", 0⟩) "J2" "note").activeJob = some ⟨"J1", 0⟩ ∧
      jsTrim (AppState.mk [] (some ⟨"J1", 0⟩) "J2" "note").jobInput ≠ "") ∧
    (handleStart 100 200 "e1" (AppState.mk [] (some ⟨"J1", 0⟩) "J2" "note") =
       handleStart 7 200 "zz" (handleStop 100 "e1" (AppState.mk [] (some ⟨"J1", 0⟩) "J2" "note")) ∧
     (handleStart 100 200 "e1" (AppState.mk [] (some ⟨"J1", 0⟩) "J2" "note")).entries =
       stopEntry 100 "e1" (AppState.mk [] (some ⟨"J1", 0⟩) "J2" "note").notesInput ⟨"J1", 0⟩ ::
         (AppState.mk [] (some ⟨"J1", 0⟩) "J2" "note").entries ∧
     (handleStart 100 200 "e1" (AppState.mk [] (some ⟨"J1", 0⟩) "J2" "note")).activeJob =
       some { jobNumber := jsTrim (AppState.mk [] (some ⟨"J1", 0⟩) "J2" "note").jobInput,
              startTimestamp := 200 }) :=
  ⟨⟨rfl, by decide⟩,
   start_while_running_eq_stop_then_start _ ⟨"J1", 0⟩ 100 200 7 "e1" "zz" rfl (by decide)⟩

/-- C2 counterexample: with the session started at millisecond 1000 and
the system clock reading 0 at stop time (a backwards clock step), the
produced entry has `endTimestamp < startTimestamp` and a negative
`durationSeconds` — the claim fails for this value of the clock. -/
theorem stop_negative_duration_counterexample :
    (stopActiveJob 0 "e1" "" cexState).2 =
      some { id := "e1", jobNumber := "J", startTimestamp := 1000, endTimestamp := 0,
             durationSeconds := -1, notes := "" } ∧
    ¬ ((1000 : Int) ≤ 0) ∧ ((-1 : Int) < 0) := by
  refine ⟨by decide, by decide, by decide⟩

/-- C2 (amended): for every entry produced by stop — including the
implicit stop of a switch — `durationSeconds` equals
`floor((endTimestamp - startTimestamp)/1000)` unconditionally, and
`endTimestamp ≥ startTimestamp` with both the duration and the timestamp
difference nonnegative PROVIDED the clock value at stop time is not
earlier than the session's `startTimestamp` (the code has no guard for a
backwards clock). -/
theorem stop_entry_duration_ok
    (s : AppState) (a : ActiveSession) (now : Int) (i notes : String)
    (hrun : s.activeJob = some a) (hmono : a.startTimestamp ≤ now) :
    (∀ e, (stopActiveJob now i notes s).2 = some e →
      e.durationSeconds = Int.fdiv (e.endTimestamp - e.startTimestamp) 1000 ∧
      e.startTimestamp ≤ e.endTimestamp ∧
      0 ≤ e.durationSeconds ∧ 0 ≤ e.endTimestamp - e.startTimestamp) ∧
    (∀ tStart, jsTrim s.jobInput ≠ "" →
      (handleStart now tStart i s).entries = stopEntry now i s.notesInput a :: s.entries ∧
      (stopEntry now i s.notesInput a).durationSeconds =
        Int.fdiv ((stopEntry now i s.notesInput a).endTimestamp -
          (stopEntry now i s.notesInput a).startTimestamp) 1000 ∧
      (stopEntry now i s.notesInput a).startTimestamp ≤
        (stopEntry now i s.notesInput a).endTimestamp ∧
      0 ≤ (stopEntry now i s.notesInput a).durationSeconds) := by
  have hdur : 0 ≤ Int.fdiv (now - a.startTimestamp) 1000 :=
    Int.fdiv_nonneg (by omega) (by omega)
  constructor
  · intro e he
    rw [show (stopActiveJob now i notes s).2 = some (stopEntry now i notes a) by
          simp [stopActiveJob, hrun]] at he
    obtain rfl : stopEntry now i notes a = e := Option.some.inj he
    refine ⟨rfl, ?_, ?_, ?_⟩ <;> simp [stopEntry] <;> omega
  · intro tStart hjob
    refine ⟨?_, rfl, ?_, ?_⟩
    · simp [handleStart, stopActiveJob, hrun, hjob]
    · simp [stopEntry]; omega
    · simpa [stopEntry] using hdur

/-- C2 witness: stopping a session started at 0 with the clock at 125999
yields duration 125. -/
theorem stop_entry_duration_ok_witness :
    ((AppState.mk [] (some ⟨"J", 0⟩) "K" "").activeJob = some ⟨"J", 0⟩ ∧
      (0 : Int) ≤ 125999) ∧
    (∀ e, (stopActiveJob 125999 "e9" "" (AppState.mk [] (some ⟨"J", 0⟩) "K" "")).2 = some e →
      e.durationSeconds = Int.fdiv (e.endTimestamp - e.startTimestamp) 1000 ∧
      e.startTimestamp ≤ e.endTimestamp ∧
      0 ≤ e.durationSeconds ∧ 0 ≤ e.endTimestamp - e.startTimestamp) :=
  ⟨⟨rfl, by decide⟩,
   (stop_entry_duration_ok _ ⟨"J", 0⟩ 125999 "e9" "" rfl (by decide)).1⟩

/-- C3 counterexample: the stored text `"42"` is decodable JSON of the
wrong shape; `load` returns the parsed number unchanged instead of the
default empty-entries value, so a wrong-shape stored string does NOT yield
the default state. -/
theorem load_wrong_shape_counterexample :
    load (some "42") parseNum42 (Json.arr []) = Json.num 42 ∧
    entriesShapeOk (Json.num 42) = false ∧
    Json.num 42 ≠ Json.arr [] :=
  ⟨rfl, rfl, fun h => Json.noConfusion h⟩

/-- C3 (amended): `load` returns the fallback exactly for an absent
record, empty stored text, or stored text on which `JSON.parse` throws;
a successfully parsed value is returned AS-IS, with no shape validation
(wrong-shape values are not replaced by the default).  `load` is a total
function, so no fault is raised in any case. -/
theorem load_fallback_behaviour
    (parse : String → Option Json) (fallback : Json) (s : String) (v : Json)
    (hs : s ≠ "") :
    load none parse fallback = fallback ∧
    load (some "") parse fallback = fallback ∧
    (parse s = none → load (some s) parse fallback = fallback) ∧
    (parse s = some v → load (some s) parse fallback = v) := by
  refine ⟨rfl, rfl, ?_, ?_⟩ <;> intro h <;> simp [load, hs, h]

/-- C3 witness: the behaviour of `load` at the stored text `"42"`. -/
theorem load_fallback_behaviour_witness :
    ("42" : String) ≠ "" ∧
    (load none parseNum42 (Json.arr []) = Json.arr [] ∧
     load (some "") parseNum42 (Json.arr []) = Json.arr [] ∧
     (parseNum42 "42" = none → load (some "42") parseNum42 (Json.arr []) = Json.arr []) ∧
     (parseNum42 "42" = some (Json.num 42) →
       load (some "42") parseNum42 (Json.arr []) = Json.num 42)) :=
  ⟨by decide, load_fallback_behaviour parseNum42 (Json.arr []) "42" (Json.num 42) (by decide)⟩

/-- C4: persisting any state and restoring it yields the same entries
list and the same optional active session, field for field; an absent
active session is persisted by REMOVING the `tt_active` record (the slot
is `none`), never by storing a null placeholder, so a restore yields the
idle state. -/
theorem persist_restore_roundtrip
    (es : List Entry) (aj : Option ActiveSession) (st : Storage) :
    restoreEntries (persistState es aj st) = some es ∧
    restoreActiveSession (persistState es aj st) = aj ∧
    (persistState es none st).ttActive = none := by
  refine ⟨?_, ?_, rfl⟩
  · show decodeEntriesJson (encodeEntries es) = some es
    simp [encodeEntries, decodeEntriesJson, decodeEntryList_encode]
  · cases aj with
    | none => rfl
    | some a => rfl

/-- C7: a confirmed clear-all empties the entries list and discards the
active session without converting it into an entry (the state after it
holds no entry at all built from the running session — the list is
empty); a declined clear-all leaves the state exactly unchanged. -/
theorem clearAll_confirmed_discards_declined_noop (s : AppState) :
    handleClearAll true s =
      { entries := [], activeJob := none, jobInput := s.jobInput, notesInput := "" } ∧
    (handleClearAll true s).entries = [] ∧
    (handleClearAll true s).activeJob = none ∧
    handleClearAll false s = s := by
  refine ⟨rfl, rfl, rfl, rfl⟩

/-- C8: every stop — explicit, via the stop handler, or the implicit stop
performed by a switch — prepends the single new entry to the front of the
entries list and leaves the tail exactly the previous list, so the
newest-first insertion order is maintained. -/
theorem stop_prepends_newest_first
    (s : AppState) (a : ActiveSession) (now : Int) (i notes : String)
    (hrun : s.activeJob = some a) :
    (stopActiveJob now i notes s).1.entries = stopEntry now i notes a :: s.entries ∧
    (handleStop now i s).entries = stopEntry now i s.notesInput a :: s.entries ∧
    (∀ tStart, jsTrim s.jobInput ≠ "" →
      (handleStart now tStart i s).entries = stopEntry now i s.notesInput a :: s.entries) := by
  refine ⟨?_, ?_, fun tStart hjob => ?_⟩
  · simp [stopActiveJob, hrun]
  · simp [handleStop, stopActiveJob, hrun]
  · simp [handleStart, stopActiveJob, hrun, hjob]

/-- C8 witness: stopping a concrete running state prepends the new entry. -/
theorem stop_prepends_newest_first_witness :
    ((AppState.mk [⟨"e0", "J0", 1, 2, 0, ""⟩] (some ⟨"J1", 10⟩) "" "n").activeJob =
      some ⟨"J1", 10⟩) ∧
    (stopActiveJob 5010 "e1" "x"
        (AppState.mk [⟨"e0", "J0", 1, 2, 0, ""⟩] (some ⟨"J1", 10⟩) "" "n")).1.entries =
      stopEntry 5010 "e1" "x" ⟨"J1", 10⟩ :: [⟨"e0", "J0", 1, 2, 0, ""⟩] :=
  ⟨rfl,
   (stop_prepends_newest_first
      (AppState.mk [⟨"e0", "J0", 1, 2, 0, ""⟩] (some ⟨"J1", 10⟩) "" "n")
      ⟨"J1", 10⟩ 5010 "e1" "x" rfl).1⟩

/-- C9: starting with an empty or whitespace-only job number leaves the
state — and hence the persisted records — exactly unchanged (and raises
no error: the operation is the total identity on such inputs). -/
theorem start_blank_job_noop
    (s : AppState) (tStop tStart : Int) (i : String) (st : Storage)
    (h : jsTrim s.jobInput = "") :
    handleStart tStop tStart i s = s ∧
    persistState (handleStart tStop tStart i s).entries
        (handleStart tStop tStart i s).activeJob st =
      persistState s.entries s.activeJob st := by
  have h1 : handleStart tStop tStart i s = s := by simp [handleStart, h]
  exact ⟨h1, by rw [h1]⟩

/-- C5: `dailyTotal` equals the sum of `durationSeconds` over exactly
those entries whose `startTimestamp` falls on the same local calendar day
(year, month, day) as the reference instant; entries starting on any
other day contribute nothing, whatever their duration or `endTimestamp`. -/
theorem dailyTotal_eq_sum_same_day (tzMs nowMs : Int) (entries : List Entry) :
    dailyTotal tzMs nowMs entries =
      ((entries.filter (fun e =>
          decide (localCivilDate tzMs e.startTimestamp = localCivilDate tzMs nowMs))).map
        Entry.durationSeconds).sum := by
  have hf : entries.filter (fun e => isToday tzMs nowMs e.startTimestamp) =
      entries.filter (fun e =>
        decide (localCivilDate tzMs e.startTimestamp = localCivilDate tzMs nowMs)) :=
    List.filter_congr (fun e _ => isToday_eq_decide tzMs nowMs e.startTimestamp)
  rw [dailyTotal, foldl_add_durations, zero_add, todayEntries, hf]

/-- C6: `jobTotals` lists, for job numbers occurring among today's
entries and no others, the sum of `durationSeconds` of today's entries
with that job number, and the (jobNumber, total) pairs are sorted by job
number in ascending lexicographic order. -/
theorem jobTotals_grouping_and_sorted (tzMs nowMs : Int) (entries : List Entry) :
    (∀ p ∈ jobTotals tzMs nowMs entries,
        p.2 = sumJob p.1 (todayEntries tzMs nowMs entries) ∧
        ∃ e ∈ todayEntries tzMs nowMs entries, e.jobNumber = p.1) ∧
    (∀ e ∈ todayEntries tzMs nowMs entries,
        (e.jobNumber, sumJob e.jobNumber (todayEntries tzMs nowMs entries)) ∈
          jobTotals tzMs nowMs entries) ∧
    List.Sorted keyLe (jobTotals tzMs nowMs entries) := by
  have hperm : List.Perm (jobTotals tzMs nowMs entries)
      (buildTotals (todayEntries tzMs nowMs entries) []) :=
    List.perm_insertionSort keyLe _
  have hnd : ((buildTotals (todayEntries tzMs nowMs entries) []).map Prod.fst).Nodup :=
    nodup_keys_buildTotals _ [] (by simp)
  refine ⟨?_, ?_, List.sorted_insertionSort keyLe _⟩
  · rintro ⟨p1, p2⟩ hp
    have hpM : (p1, p2) ∈ buildTotals (todayEntries tzMs nowMs entries) [] := hperm.subset hp
    have hfind : findJob p1 (buildTotals (todayEntries tzMs nowMs entries) []) = some p2 :=
      findJob_eq_some_of_mem _ _ _ hnd hpM
    constructor
    · have hg := getD_findJob_buildTotals (todayEntries tzMs nowMs entries) [] p1
      rw [hfind] at hg
      simpa [findJob] using hg
    · have hsome : (findJob p1 (buildTotals (todayEntries tzMs nowMs entries) [])).isSome =
          true := by rw [hfind]; rfl
      have hocc := (isSome_findJob_buildTotals (todayEntries tzMs nowMs entries) [] p1).1 hsome
      simpa [findJob] using hocc
  · intro e he
    have hsome : (findJob e.jobNumber
        (buildTotals (todayEntries tzMs nowMs entries) [])).isSome = true :=
      (isSome_findJob_buildTotals (todayEntries tzMs nowMs entries) [] e.jobNumber).2
        (Or.inr ⟨e, he, rfl⟩)
    obtain ⟨t, ht⟩ := Option.isSome_iff_exists.1 hsome
    have hmem := mem_of_findJob_eq_some _ _ _ ht
    have hval : t = sumJob e.jobNumber (todayEntries tzMs nowMs entries) := by
      have hg := getD_findJob_buildTotals (todayEntries tzMs nowMs entries) [] e.jobNumber
      rw [ht] at hg
      simpa [findJob] using hg
    rw [← hval]
    exact hperm.mem_iff.2 hmem

/-- C10: the job numbers listed by `jobTotals` are pairwise distinct, and
the listed totals sum to `dailyTotal` — the per-job grouping partitions
today's entries. -/
theorem jobTotals_partition_dailyTotal (tzMs nowMs : Int) (entries : List Entry) :
    ((jobTotals tzMs nowMs entries).map Prod.fst).Nodup ∧
    ((jobTotals tzMs nowMs entries).map Prod.snd).sum = dailyTotal tzMs nowMs entries := by
  have hperm : List.Perm (jobTotals tzMs nowMs entries)
      (buildTotals (todayEntries tzMs nowMs entries) []) :=
    List.perm_insertionSort keyLe _
  constructor
  · have hnd : ((buildTotals (todayEntries tzMs nowMs entries) []).map Prod.fst).Nodup :=
      nodup_keys_buildTotals _ [] (by simp)
    exact ((hperm.map Prod.fst).nodup_iff).2 hnd
  · rw [(hperm.map Prod.snd).sum_eq, sum_buildTotals, dailyTotal, foldl_add_durations]
    simp

/-- C9 witness: a whitespace-only job input is a no-op. -/
theorem start_blank_job_noop_witness :
    jsTrim (AppState.mk [] none "   " "x").jobInput = "" ∧
    handleStart 1 2 "i" (AppState.mk [] none "   " "x") = AppState.mk [] none "   " "x" :=
  ⟨by decide,
   (start_blank_job_noop (AppState.mk [] none "   " "x") 1 2 "i" ⟨none, none⟩ (by decide)).1⟩

-- Concrete evaluations checking the state-machine model on small inputs.
example : (jsTrim "   " = "") := by decide
example : (jsTrim "  a " = "a") := rfl
example : Int.fdiv (-1000) 1000 = -1 := by decide
example : Int.fdiv 125999 1000 = 125 := by decide
example :
    handleStart 100 200 "e1" { entries := [], activeJob := some ⟨"J1", 0⟩,
                               jobInput := "J2", notesInput := "n" } =
    { entries := [{ id := "e1", jobNumber := "J1", startTimestamp := 0,
                    endTimestamp := 100, durationSeconds := 0, notes := "n" }],
      activeJob := some ⟨"J2", 200⟩, jobInput := "J2", notesInput := "" } := by decide

end TimeTracker
